import Mathlib

/-!
Shallow embedding of the video-assembly core in `src/movie.py` of the
SparrowTale AI Storyteller repository, and proofs about it.

Modelling conventions: pure Python functions become Lean functions;
in-place numpy mutation becomes explicit state passing (the mutated
buffer is stored back where it lives); `uint8` arithmetic becomes `Nat`
arithmetic with the exact truncation the numpy cast performs; fallible
code returns `Option`; external collaborators (file system, audio
probing, subprocess outcomes, PIL rasterisation) are explicit parameters.
-/

namespace Movie

/-- A background (video-frame) pixel: `cv2` images are BGR, channels 0,1,2. -/
structure BPix where
  b : Nat
  g : Nat
  r : Nat
deriving DecidableEq, Repr

/-- An overlay pixel as produced by PIL: RGBA.  `fast_composite` converts the
overlay to BGRA with `cv2.cvtColor` before blending; that conversion is
encoded in `fastCompositePix` by matching colour channels by name. -/
structure OPix where
  r : Nat
  g : Nat
  b : Nat
  a : Nat
deriving DecidableEq, Repr

/-- A BGR image: list of rows of pixels (row-major, like a numpy array). -/
abbrev Img := List (List BPix)

/-- An RGBA overlay image. -/
abbrev OImg := List (List OPix)

/-- One channel of `fast_composite`: numpy evaluates
`alpha * ov + (1 - alpha) * bg` with `alpha = a / 255` in float, and the
assignment back into the `uint8` array truncates toward zero; for byte-range
inputs this is exactly `(a * ov + (255 - a) * bg) / 255` in `Nat`. -/
def blendChan (a ov bg : Nat) : Nat := (a * ov + (255 - a) * bg) / 255

/-- Per-pixel blend of `fast_composite`: the three colour channels are
blended with the overlay alpha; the frame has no alpha channel of its own
(only channels 0..2 are written). -/
def fastCompositePix (bg : BPix) (ov : OPix) : BPix :=
  { b := blendChan ov.a ov.b bg.b
    g := blendChan ov.a ov.g bg.g
    r := blendChan ov.a ov.r bg.r }

/-- `fast_composite(background, overlay)`: per-pixel, per-channel alpha
blend.  In Python the result is written into the `background` array itself
(`background[:, :, c] = ...`) and that same array is returned, so callers
keeping another reference to `background` observe the mutation; the
compositor embedding (`sceneStep`) models this by storing the result back
into the zoom-frame map entry it was read from. -/
def fast_composite (background : Img) (overlay : OImg) : Img :=
  List.zipWith (fun brow orow => List.zipWith fastCompositePix brow orow) background overlay

/-- `zoom_start = 1.0` in `precalculate_zoom_frames`. -/
def zoom_start : ℚ := 1

/-- `zoom_end = 1.15` in `precalculate_zoom_frames`. -/
def zoom_end : ℚ := 23 / 20

/-- `sample_rate = 4`, the hardcoded zoom sampling stride. -/
def sample_rate : Nat := 4

/-- `progress = frame_num / total_frames if total_frames > 0 else 0`. -/
def zoomProgress (frameNum totalFrames : Nat) : ℚ :=
  if 0 < totalFrames then (frameNum : ℚ) / (totalFrames : ℚ) else 0

/-- `current_zoom = zoom_start + (zoom_end - zoom_start) * progress`. -/
def zoomFactor (frameNum totalFrames : Nat) : ℚ :=
  zoom_start + (zoom_end - zoom_start) * zoomProgress frameNum totalFrames

/-- Python `range(0, total, s)` for `s ≥ 1`: the ascending multiples of `s`
below `total` (for `s = 0` Python raises; the model returns `[]`). -/
def strideRange (total s : Nat) : List Nat :=
  if s = 0 then [] else (List.range total).filter (fun k => k % s == 0)

/-- Pixel access with the usual out-of-range default. -/
def getPix (img : Img) (i j : Nat) : BPix :=
  ((img.get? i).bind (fun row => row.get? j)).getD ⟨0, 0, 0⟩

/-- Model of `cv2.resize(img, (w, h))`, an external library call: embedded as
nearest-neighbour index sampling, which realises the only facts the code
relies on — the output geometry (`h` rows of `w` pixels) with content drawn
from `img`. -/
def cvResize (img : Img) (w h : Nat) : Img :=
  (List.range h).map (fun i =>
    (List.range w).map (fun j =>
      getPix img (i * img.length / h) (j * ((img.get? 0).getD []).length / w)))

/-- `apply_zoom_effect_fast(img, zoom_factor, target_size)`.  `int(x)` on the
nonnegative float `target * zoom_factor` truncates, i.e. `Nat.floor`;
`max(0, (new - target) // 2)` coincides with `Nat` subtraction and
division; the numpy slice `[a : a + n]` is `drop a` then `take n`. -/
def apply_zoom_effect_fast (img : Img) (zoomF : ℚ) (targetW targetH : Nat) : Img :=
  if zoomF = 1 then cvResize img targetW targetH
  else
    let newW := ⌊(targetW : ℚ) * zoomF⌋₊
    let newH := ⌊(targetH : ℚ) * zoomF⌋₊
    let zoomed := cvResize img newW newH
    let startX := (newW - targetW) / 2
    let startY := (newH - targetH) / 2
    ((zoomed.drop startY).take targetH).map (fun row => (row.drop startX).take targetW)

/-- The blank canvas-sized buffer substituted when `cv2.imread` fails:
`np.zeros((video_size[1], video_size[0], 3), dtype=np.uint8)`. -/
def blackImage (w h : Nat) : Img := List.replicate h (List.replicate w ⟨0, 0, 0⟩)

/-- `precalculate_zoom_frames(image_path, total_frames, video_size)` after
the image load: `imgOpt` is the `cv2.imread` result (`none` = decode
failure, replaced by a black buffer).  The run-scoped cache keyed by
(path, total_frames, size) only memoizes this computation, so the embedding
is the computation itself.  `s` is the sampling stride (`sample_rate = 4`
in the source). -/
def precalculate_zoom_frames (imgOpt : Option Img) (totalFrames : Nat)
    (videoW videoH : Nat) (s : Nat) : List (Nat × Img) :=
  let img := imgOpt.getD (blackImage videoW videoH)
  (strideRange totalFrames s).map
    (fun frameNum =>
      (frameNum, apply_zoom_effect_fast img (zoomFactor frameNum totalFrames) videoW videoH))

/-- Python `min(keys, key=f)`: the first element attaining the minimal
measure (ties resolved toward the earlier element, as Python `min` does). -/
def minByFirst (f : Nat → Nat) : List Nat → Option Nat
  | [] => none
  | x :: xs =>
    match minByFirst f xs with
    | none => some x
    | some y => if f y < f x then some y else some x

/-- Insertion into an ascending list, for the model of Python `sorted`. -/
def insertSorted (x : Nat) : List Nat → List Nat
  | [] => [x]
  | y :: ys => if x ≤ y then x :: y :: ys else y :: insertSorted x ys

/-- Model of Python `sorted` on a list of naturals. -/
def sortNat (l : List Nat) : List Nat := l.foldr insertSorted []

/-- The key-selection logic of `get_closest_zoom_frame`: try the stride
multiple `(frame_num // sample_rate) * sample_rate`; if it was never
materialised, take the sorted key of minimal absolute distance
(`min(available_keys, key=lambda x: abs(x - frame_num))`).  Returns `none`
only on an empty map, where Python `min` would raise. -/
def getClosestZoomKey (zoomFrames : List (Nat × Img)) (frameNum s : Nat) : Option Nat :=
  let closestKey := frameNum / s * s
  if (zoomFrames.lookup closestKey).isSome then some closestKey
  else minByFirst (fun x => Nat.dist x frameNum) (sortNat (zoomFrames.map Prod.fst))

/-- `get_closest_zoom_frame(zoom_frames, frame_num, sample_rate)`: the
buffer stored at the selected key. -/
def get_closest_zoom_frame (zoomFrames : List (Nat × Img)) (frameNum s : Nat) : Option Img :=
  (getClosestZoomKey zoomFrames frameNum s).bind (fun k => zoomFrames.lookup k)

/-- The per-scene record built by `preprocess_all_scenes`. -/
structure ProcessedScene where
  audio_path : String
  text_overlay : Option OImg
  zoom_frames : List (Nat × Img)
  total_frames : Nat
  duration : ℚ
deriving DecidableEq, Repr

/-- Replacing the buffer stored at key `k` of the zoom-frame map: this is
how the model renders the in-place numpy mutation performed by
`fast_composite` on the buffer the map holds. -/
def updateKey (m : List (Nat × Img)) (k : Nat) (v : Img) : List (Nat × Img) :=
  m.map (fun p => if p.1 = k then (k, v) else p)

/-- One iteration of the per-frame loop in `create_video_from_preprocessed`:
resolve the nearest zoom frame; if a text overlay exists, `fast_composite`
blends it into that very buffer (so the zoom-frame map now holds the
blended result); append the emitted frame.  State: (zoom-frame map,
frames written so far). -/
def sceneStep (overlay : Option OImg) (s : Nat)
    (st : List (Nat × Img) × List Img) (frameNum : Nat) :
    List (Nat × Img) × List Img :=
  match getClosestZoomKey st.1 frameNum s with
  | none => st
  | some k =>
    match st.1.lookup k with
    | none => st
    | some bg =>
      match overlay with
      | none => (st.1, st.2 ++ [bg])
      | some ov =>
        let blended := fast_composite bg ov
        (updateKey st.1 k blended, st.2 ++ [blended])

/-- The whole frame loop for one scene: returns the zoom-frame map as it
stands after the scene (mutated by compositing) and the frames written to
the encoder sink for this scene, in frame order. -/
def writeScene (scene : ProcessedScene) (s : Nat) : List (Nat × Img) × List Img :=
  (List.range scene.total_frames).foldl (sceneStep scene.text_overlay s) (scene.zoom_frames, [])

/-- `create_video_from_preprocessed` reduced to its observable data path:
the stream of frames written to the encoder sink and the collected
per-scene audio paths, in scene order.  `writerOpened` models
`video_writer.isOpened()`; when it fails the function returns `False`
having written nothing. -/
def create_video_from_preprocessed (scenes : List ProcessedScene) (writerOpened : Bool) :
    Option (List Img × List String) :=
  if writerOpened then
    some (scenes.foldl
      (fun acc scene => (acc.1 ++ (writeScene scene sample_rate).2, acc.2 ++ [scene.audio_path]))
      ([], []))
  else none

/-- A raw scene descriptor as read from the JSON: `scene_item.get(...)`
returns `None` for absent keys (`audio_text` defaults to `""`). -/
structure SceneItem where
  image_path : Option String
  audio_path : Option String
  audio_text : String
deriving DecidableEq, Repr

/-- The ambient file system and probing tools seen by the worker:
`fileExists` is `os.path.exists`; `probe p` is the audio duration obtained
by `librosa.load`, or on decode failure by the `ffprobe` fallback (`none`
when both fail, including probe timeout or unparsable output). -/
structure Env where
  fileExists : String → Bool
  probe : String → Option ℚ

/-- The dict returned by a successful `process_single_scene_worker`. -/
structure SceneTiming where
  image_path : String
  audio_path : String
  text : String
  audio_duration : ℚ
  total_frames : Nat
deriving DecidableEq, Repr

/-- `process_single_scene_worker((scene_item, fps, video_size))`: checks
both paths are truthy (`not image_path` is true for `None` and `""`) and
exist, probes the audio duration, rejects `duration <= 0`, and computes
`total_frames = int(duration * fps)` — truncation of a nonnegative float,
i.e. the floor. -/
def process_single_scene_worker (env : Env) (fps : Nat) (item : SceneItem) :
    Option SceneTiming :=
  match item.image_path with
  | none => none
  | some imgP =>
    if imgP = "" ∨ env.fileExists imgP = false then none
    else
      match item.audio_path with
      | none => none
      | some audP =>
        if audP = "" ∨ env.fileExists audP = false then none
        else
          match env.probe audP with
          | none => none
          | some d =>
            if d ≤ 0 then none
            else some { image_path := imgP, audio_path := audP, text := item.audio_text,
                        audio_duration := d, total_frames := ⌊d * (fps : ℚ)⌋₊ }

/-- The results collected from the process pool, in completion order:
`order` lists the task indices in the order in which workers finish. -/
def poolCompleted (f : α → β) (tasks : List α) (order : List Nat) : List (Nat × β) :=
  order.filterMap (fun i => (tasks.get? i).map (fun t => (i, f t)))

/-- `executor.map` re-associates results with their original task index:
one slot per task, filled from the completed pairs. -/
def poolReassembled (f : α → β) (tasks : List α) (order : List Nat) : List β :=
  (List.range tasks.length).filterMap (fun i => (poolCompleted f tasks order).lookup i)

/-- `process_scenes_parallel(scenes_data, max_workers)`: run the workers in
some completion order, reassemble in input order, and filter out the `None`
failures.  `maxWorkers` only sizes the pool; it never enters the data
path. -/
def process_scenes_parallel (env : Env) (fps : Nat) (scenes : List SceneItem)
    (maxWorkers : Nat) (order : List Nat) : List SceneTiming :=
  let _ := maxWorkers
  (poolReassembled (process_single_scene_worker env fps) scenes order).filterMap id

/-- Specification-side definition, written from the spec text for the C1
refinement comparison: the sequential map of the worker over the input
followed by filtering out the failures. -/
def processScenesSequentialSpec (env : Env) (fps : Nat) (scenes : List SceneItem) :
    List SceneTiming :=
  (scenes.map (process_single_scene_worker env fps)).reduceOption

/-- Model of the PIL rasteriser used by `create_text_overlay_once`: an
external collaborator producing the canvas-sized RGBA bitmap for a caption. -/
structure RenderEnv where
  render : String → Nat → Nat → OImg

/-- `create_text_overlay_once(text, video_size)`: empty (stripped) captions
produce no overlay; otherwise the rendered bitmap.  The run-scoped cache
only memoizes this computation. -/
def create_text_overlay_once (renv : RenderEnv) (text : String) (videoW videoH : Nat) :
    Option OImg :=
  if text.trim = "" then none else some (renv.render text videoW videoH)

/-- `preprocess_all_scenes`: the parallel stage, then per-scene overlay and
zoom-frame construction (total in the model, where rasterisation and image
decoding cannot throw; `imread p` is the `cv2.imread` result for `p`). -/
def preprocess_all_scenes (env : Env) (renv : RenderEnv) (imread : String → Option Img)
    (scenes : List SceneItem) (fps : Nat) (videoW videoH : Nat) (order : List Nat) :
    List ProcessedScene :=
  let parallelResults := process_scenes_parallel env fps scenes 8 order
  parallelResults.map (fun r =>
    { audio_path := r.audio_path
      text_overlay := create_text_overlay_once renv r.text videoW videoH
      zoom_frames :=
        precalculate_zoom_frames (imread r.image_path) r.total_frames videoW videoH sample_rate
      total_frames := r.total_frames
      duration := r.audio_duration })

/-- `create_video_from_json` down to its scene-level control flow: JSON
loading (`none` = read/parse error), the ffmpeg availability check,
preprocessing, the empty-timeline guard, and the downstream frame/audio
work abstracted as `downstream`. -/
def create_video_from_json (env : Env) (renv : RenderEnv) (imread : String → Option Img)
    (jsonLoad : Option (List SceneItem)) (ffmpegOk : Bool)
    (downstream : List ProcessedScene → Bool) (fps videoW videoH : Nat)
    (order : List Nat) : Bool :=
  match jsonLoad with
  | none => false
  | some data =>
    if ffmpegOk = false then false
    else
      let processedScenes := preprocess_all_scenes env renv imread data fps videoW videoH order
      if processedScenes = [] then false
      else downstream processedScenes

/-- Outcome of one external subprocess invocation: zero exit, non-zero
exit, or a raised exception (including `TimeoutExpired`). -/
inductive SubprocOutcome
  | ok
  | failExit
  | exc
deriving DecidableEq, Repr

/-- The file-system state relevant to cleanup: the existing paths. -/
abbrev FS := List String

/-- `os.remove` on the model file system. -/
def fsRemove (fs : FS) (p : String) : FS := fs.filter (fun q => q != p)

/-- The manifest file name in `combine_audio_files`. -/
def audio_list_file : String := "audio_list.txt"

/-- The combined-audio intermediate in `finalize_video`. -/
def temp_combined_audio : String := "temp_combined_audio.wav"

/-- The silent-video intermediate in `create_video_from_preprocessed`. -/
def temp_video_file : String := "temp_video.mp4"

/-- `cleanup_temp_files(file_list)`: best-effort removal.  `removeOk p =
false` models `os.remove` raising; the exception is caught and logged,
never escalated — the function always returns, and only the failing file
survives. -/
def cleanup_temp_files (removeOk : String → Bool) (fileList : List String) (fs : FS) : FS :=
  fileList.foldl (fun s p => if p ∈ s ∧ removeOk p = true then fsRemove s p else s) fs

/-- `combine_audio_files(audio_files, output_path)` restricted to its
file-system effects and result.  The single-file path runs one conversion
subprocess.  The multi-file path writes the `audio_list.txt` manifest, runs
the concat subprocess, then removes the manifest — but an exception (e.g.
timeout) jumps to the handler with the manifest still on disk.  On zero
exit the output file exists. -/
def combine_audio_files (outcome : SubprocOutcome) (audioFiles : List String)
    (outputPath : String) (fs : FS) : Bool × FS :=
  if audioFiles.length = 1 then
    match outcome with
    | SubprocOutcome.ok => (true, outputPath :: fs)
    | SubprocOutcome.failExit => (false, fs)
    | SubprocOutcome.exc => (false, fs)
  else
    let fs1 := audio_list_file :: fs
    match outcome with
    | SubprocOutcome.ok => (true, outputPath :: fsRemove fs1 audio_list_file)
    | SubprocOutcome.failExit => (false, fsRemove fs1 audio_list_file)
    | SubprocOutcome.exc => (false, fs1)

/-- `merge_video_audio(video_path, audio_path, output_path)`: on zero exit
the muxed output exists and the call reports success; non-zero exit and
exceptions (including the 5-minute timeout) report failure. -/
def merge_video_audio (outcome : SubprocOutcome) (outputPath : String) (fs : FS) :
    Bool × FS :=
  match outcome with
  | SubprocOutcome.ok => (true, outputPath :: fs)
  | SubprocOutcome.failExit => (false, fs)
  | SubprocOutcome.exc => (false, fs)

/-- `finalize_video(temp_video, temp_audio_files, output_filename, ...)`:
combine the audio, merge it with the silent video, and only in the success
branch — output file present — call `cleanup_temp_files` on the
intermediate video and the combined audio.  Every failure branch returns
`False` without any cleanup. -/
def finalize_video (combineOutcome mergeOutcome : SubprocOutcome)
    (removeOk : String → Bool) (tempVideo : String) (tempAudioFiles : List String)
    (outputFilename : String) (fs : FS) : Bool × FS :=
  if tempAudioFiles = [] then (false, fs)
  else
    match combine_audio_files combineOutcome tempAudioFiles temp_combined_audio fs with
    | (false, fs1) => (false, fs1)
    | (true, fs1) =>
      match merge_video_audio mergeOutcome outputFilename fs1 with
      | (false, fs2) => (false, fs2)
      | (true, fs2) =>
        if outputFilename ∈ fs2 then
          (true, cleanup_temp_files removeOk [tempVideo, temp_combined_audio] fs2)
        else (false, fs2)

/-- `wrap_text(text, font, max_width)`: a line is represented by the list of
words it joins with single spaces; `meas` is the rendered width
`textbbox((0,0), line, font)[2]` of a joined line.  `lines` is the emitted
accumulator, `current` the line under construction; a word that does not
fit flushes `current` when non-empty, and is emitted verbatim on its own
line when `current` is empty. -/
def wrapAux (meas : List String → Nat) (maxWidth : Nat) :
    List String → List (List String) → List String → List (List String)
  | [], lines, current => if current = [] then lines else lines ++ [current]
  | w :: ws, lines, current =>
    if meas (current ++ [w]) ≤ maxWidth then wrapAux meas maxWidth ws lines (current ++ [w])
    else if current = [] then wrapAux meas maxWidth ws (lines ++ [[w]]) []
    else wrapAux meas maxWidth ws (lines ++ [current]) [w]

/-- `wrap_text` on the word list `text.split()`. -/
def wrap_text (meas : List String → Nat) (maxWidth : Nat) (words : List String) :
    List (List String) :=
  wrapAux meas maxWidth words [] []

/-! ### Helper lemmas -/

theorem lookup_map_pair {γ : Type} (g : Nat → γ) (l : List Nat) (i : Nat) :
    (l.map (fun k => (k, g k))).lookup i = if i ∈ l then some (g i) else none := by
  induction l with
  | nil => simp [List.lookup]
  | cons x xs ih =>
    simp only [List.map_cons, List.lookup, List.mem_cons]
    by_cases hx : i = x
    · subst hx; simp
    · simp only [hx, false_or]
      have : (i == x) = false := by simp [hx]
      simp [this, ih]

theorem mem_strideRange {total s k : Nat} (hs : s ≠ 0) :
    k ∈ strideRange total s ↔ k < total ∧ k % s = 0 := by
  simp [strideRange, hs, List.mem_filter, List.mem_range]

/-! ### Claim C3 -/

/-- Claim C3: for every total_frames ≥ 1, stride ≥ 1 and frame index in
`[0, total_frames)`, the sparse zoom map for the scene is non-empty, the
resolution rule finds the materialised key `(frame_index // stride) * stride`,
and `get_closest_zoom_frame` returns that materialised frame. -/
theorem closest_zoom_frame_total (imgOpt : Option Img) (total s f w h : Nat)
    (hs : 1 ≤ s) (ht : 1 ≤ total) (hf : f < total) :
    precalculate_zoom_frames imgOpt total w h s ≠ [] ∧
    getClosestZoomKey (precalculate_zoom_frames imgOpt total w h s) f s = some (f / s * s) ∧
    ∃ img, (precalculate_zoom_frames imgOpt total w h s).lookup (f / s * s) = some img ∧
      get_closest_zoom_frame (precalculate_zoom_frames imgOpt total w h s) f s = some img := by
  have hs0 : s ≠ 0 := Nat.one_le_iff_ne_zero.mp hs
  have hkmem : f / s * s ∈ strideRange total s := by
    rw [mem_strideRange hs0]
    exact ⟨lt_of_le_of_lt (Nat.div_mul_le_self f s) hf, Nat.mul_mod_left _ _⟩
  have hlook :
      (precalculate_zoom_frames imgOpt total w h s).lookup (f / s * s) =
        some (apply_zoom_effect_fast (imgOpt.getD (blackImage w h))
          (zoomFactor (f / s * s) total) w h) := by
    unfold precalculate_zoom_frames
    rw [lookup_map_pair]
    simp [hkmem]
  have hkey : getClosestZoomKey (precalculate_zoom_frames imgOpt total w h s) f s =
      some (f / s * s) := by
    unfold getClosestZoomKey
    simp only [hlook, Option.isSome_some, if_true]
  refine ⟨?_, hkey, ⟨_, hlook, ?_⟩⟩
  · intro hnil
    rw [hnil] at hlook
    simp [List.lookup] at hlook
  · unfold get_closest_zoom_frame
    rw [hkey]
    simpa using hlook

/-- Witness for C3 at a concrete input (`total_frames = 5`, stride `4`,
frame index `3`). -/
theorem closest_zoom_frame_total_witness :
    (1 ≤ 4 ∧ 1 ≤ 5 ∧ 3 < 5) ∧
    (precalculate_zoom_frames none 5 1 1 4 ≠ [] ∧
    getClosestZoomKey (precalculate_zoom_frames none 5 1 1 4) 3 4 = some (3 / 4 * 4) ∧
    ∃ img, (precalculate_zoom_frames none 5 1 1 4).lookup (3 / 4 * 4) = some img ∧
      get_closest_zoom_frame (precalculate_zoom_frames none 5 1 1 4) 3 4 = some img) :=
  ⟨by decide,
    closest_zoom_frame_total none 5 4 3 1 1 (by decide) (by decide) (by decide)⟩

/-! ### Claim C6 -/

/-- Claim C6: within a scene the zoom factor is monotonically non-decreasing
in the frame index, linear in `frame_index / total_frames` with the concrete
coefficients `1.0` and `0.15`, equals `1.0` at frame `0`, and at the last
sampled index (the maximal element of the sampled index set) satisfies
`zoom ≥ 1.0 + 0.15 * (total_frames - stride) / total_frames`. -/
theorem zoom_factor_schedule (total s i j : Nat) (ht : 1 ≤ total) (hs : 1 ≤ s)
    (hij : i ≤ j) :
    zoomFactor 0 total = 1 ∧
    zoomFactor i total ≤ zoomFactor j total ∧
    zoomFactor i total = 1 + (3 / 20) * ((i : ℚ) / (total : ℚ)) ∧
    ((total - 1) / s * s ∈ strideRange total s ∧
      ∀ k ∈ strideRange total s, k ≤ (total - 1) / s * s) ∧
    1 + (3 / 20) * (((total : ℚ) - (s : ℚ)) / (total : ℚ)) ≤
      zoomFactor ((total - 1) / s * s) total := by
  have htpos : 0 < total := ht
  have htq : (0 : ℚ) < (total : ℚ) := by exact_mod_cast htpos
  have hs0 : s ≠ 0 := Nat.one_le_iff_ne_zero.mp hs
  have hlinear : ∀ n : Nat, zoomFactor n total = 1 + (3 / 20) * ((n : ℚ) / (total : ℚ)) := by
    intro n
    unfold zoomFactor zoomProgress zoom_start zoom_end
    rw [if_pos htpos]
    ring
  have hL : (total - 1) / s * s + (total - 1) % s = total - 1 := by
    have := Nat.div_add_mod (total - 1) s
    rw [Nat.mul_comm] at this
    exact this
  have hmod : (total - 1) % s < s := Nat.mod_lt _ hs
  have key : ∀ L r : Nat, L + r = total - 1 → r < s → total ≤ L + s := by
    intro L r h1 h2
    omega
  have hLtotal : total ≤ (total - 1) / s * s + s := key _ _ hL hmod
  refine ⟨?_, ?_, hlinear i, ⟨?_, ?_⟩, ?_⟩
  · rw [hlinear 0]; norm_num
  · rw [hlinear i, hlinear j]
    have hij' : (i : ℚ) ≤ (j : ℚ) := by exact_mod_cast hij
    gcongr
  · rw [mem_strideRange hs0]
    constructor
    · have : (total - 1) / s * s ≤ total - 1 := Nat.div_mul_le_self _ _
      omega
    · exact Nat.mul_mod_left _ _
  · intro k hk
    rw [mem_strideRange hs0] at hk
    obtain ⟨hklt, hkmod⟩ := hk
    have hdvd : s ∣ k := Nat.dvd_of_mod_eq_zero hkmod
    have hk1 : k / s * s = k := Nat.div_mul_cancel hdvd
    have : k / s ≤ (total - 1) / s := Nat.div_le_div_right (by omega)
    calc k = k / s * s := hk1.symm
    _ ≤ (total - 1) / s * s := Nat.mul_le_mul_right s this
  · rw [hlinear]
    have hcast : (total : ℚ) ≤ ((total - 1) / s * s : Nat) + (s : ℚ) := by
      exact_mod_cast hLtotal
    have hnum : (total : ℚ) - (s : ℚ) ≤ (((total - 1) / s * s : Nat) : ℚ) := by linarith
    gcongr

/-- Witness for C6 at `total_frames = 5`, stride `4`, frame indices `1 ≤ 2`. -/
theorem zoom_factor_schedule_witness :
    (1 ≤ 5 ∧ 1 ≤ 4 ∧ 1 ≤ 2) ∧
    (zoomFactor 0 5 = 1 ∧
    zoomFactor 1 5 ≤ zoomFactor 2 5 ∧
    zoomFactor 1 5 = 1 + (3 / 20) * ((1 : ℚ) / (5 : ℚ)) ∧
    ((5 - 1) / 4 * 4 ∈ strideRange 5 4 ∧
      ∀ k ∈ strideRange 5 4, k ≤ (5 - 1) / 4 * 4) ∧
    1 + (3 / 20) * (((5 : ℚ) - (4 : ℚ)) / (5 : ℚ)) ≤ zoomFactor ((5 - 1) / 4 * 4) 5) :=
  ⟨by decide, zoom_factor_schedule 5 4 1 2 (by decide) (by decide) (by decide)⟩

/-! ### Claim C9 -/

theorem wrapAux_join (meas : List String → Nat) (maxWidth : Nat) :
    ∀ (words : List String) (lines : List (List String)) (current : List String),
      (wrapAux meas maxWidth words lines current).join = lines.join ++ current ++ words := by
  intro words
  induction words with
  | nil =>
    intro lines current
    by_cases h : current = [] <;> simp [wrapAux, h]
  | cons w ws ih =>
    intro lines current
    simp only [wrapAux]
    by_cases h1 : meas (current ++ [w]) ≤ maxWidth
    · rw [if_pos h1, ih]
      simp
    · rw [if_neg h1]
      by_cases h2 : current = []
      · rw [if_pos h2, ih]
        simp [h2]
      · rw [if_neg h2, ih]
        simp

theorem wrapAux_sound (meas : List String → Nat) (maxWidth : Nat) :
    ∀ (words : List String) (lines : List (List String)) (current : List String),
      (∀ l ∈ lines, meas l ≤ maxWidth ∨ l.length = 1) →
      (current = [] ∨ meas current ≤ maxWidth ∨ current.length = 1) →
      ∀ l ∈ wrapAux meas maxWidth words lines current,
        meas l ≤ maxWidth ∨ l.length = 1 := by
  intro words
  induction words with
  | nil =>
    intro lines current hlines hcur l hl
    by_cases h : current = []
    · rw [wrapAux, if_pos h] at hl
      exact hlines l hl
    · rw [wrapAux, if_neg h] at hl
      rcases List.mem_append.mp hl with hm | hm
      · exact hlines l hm
      · rw [List.mem_singleton] at hm
        subst hm
        rcases hcur with h0 | h0 | h0
        · exact absurd h0 h
        · exact Or.inl h0
        · exact Or.inr h0
  | cons w ws ih =>
    intro lines current hlines hcur l hl
    rw [wrapAux] at hl
    by_cases h1 : meas (current ++ [w]) ≤ maxWidth
    · rw [if_pos h1] at hl
      exact ih lines (current ++ [w]) hlines (Or.inr (Or.inl h1)) l hl
    · rw [if_neg h1] at hl
      by_cases h2 : current = []
      · rw [if_pos h2] at hl
        refine ih (lines ++ [[w]]) [] ?_ (Or.inl rfl) l hl
        intro l2 hl2
        rcases List.mem_append.mp hl2 with hm | hm
        · exact hlines l2 hm
        · rw [List.mem_singleton] at hm
          subst hm
          exact Or.inr rfl
      · rw [if_neg h2] at hl
        refine ih (lines ++ [current]) [w] ?_ (Or.inr (Or.inr rfl)) l hl
        intro l2 hl2
        rcases List.mem_append.mp hl2 with hm | hm
        · exact hlines l2 hm
        · rw [List.mem_singleton] at hm
          subst hm
          rcases hcur with h0 | h0 | h0
          · exact absurd h0 h2
          · exact Or.inl h0
          · exact Or.inr h0

/-- Claim C9: for every caption word list, measurement function (monotone
under extending a line) and maximum width, `wrap_text` only produces lines
whose measured width is within the maximum or that consist of exactly one
word; and the words of the produced lines are exactly the input words in
order — no word is ever split. -/
theorem wrap_text_width_sound (meas : List String → Nat) (maxWidth : Nat)
    (words : List String)
    (hmono : ∀ (l : List String) (w : String), meas l ≤ meas (l ++ [w])) :
    (∀ line ∈ wrap_text meas maxWidth words, meas line ≤ maxWidth ∨ line.length = 1) ∧
    (wrap_text meas maxWidth words).join = words := by
  constructor
  · exact wrapAux_sound meas maxWidth words [] [] (by simp) (Or.inl rfl)
  · rw [wrap_text, wrapAux_join]
    simp

/-- Witness for C9: width measured as the number of words, maximum 2,
caption of three words. -/
theorem wrap_text_width_sound_witness :
    (∀ (l : List String) (w : String), List.length l ≤ List.length (l ++ [w])) ∧
    ((∀ line ∈ wrap_text List.length 2 ["a", "b", "c"],
        List.length line ≤ 2 ∨ line.length = 1) ∧
      (wrap_text List.length 2 ["a", "b", "c"]).join = ["a", "b", "c"]) :=
  ⟨fun l w => by simp,
    wrap_text_width_sound List.length 2 ["a", "b", "c"] (fun l w => by simp)⟩

/-! ### Claim C1 -/

theorem poolCompleted_lookup {α β : Type} (f : α → β) (tasks : List α) :
    ∀ (order : List Nat), (∀ j ∈ order, j < tasks.length) →
      ∀ i : Nat, (poolCompleted f tasks order).lookup i =
        if i ∈ order then (tasks.get? i).map f else none := by
  intro order
  induction order with
  | nil =>
    intro _ i
    simp [poolCompleted, List.lookup]
  | cons j js ih =>
    intro hbound i
    have hj : j < tasks.length := hbound j (List.mem_cons_self j js)
    obtain ⟨t, ht⟩ : ∃ t, tasks.get? j = some t := by
      rw [List.get?_eq_get hj]
      exact ⟨_, rfl⟩
    have hrest : ∀ x ∈ js, x < tasks.length := fun x hx => hbound x (List.mem_cons_of_mem _ hx)
    have ht2 : tasks[j]? = some t := by simpa using ht
    have hstep : poolCompleted f tasks (j :: js) = (j, f t) :: poolCompleted f tasks js := by
      simp [poolCompleted, List.filterMap_cons, ht2]
    rw [hstep]
    by_cases hij : i = j
    · subst hij
      simp [List.lookup, ht2]
    · have hne : (i == j) = false := by simp [hij]
      simp only [List.lookup, hne]
      rw [ih hrest i]
      simp [List.mem_cons, hij]

theorem range_filterMap_get {α β : Type} (f : α → β) :
    ∀ tasks : List α,
      (List.range tasks.length).filterMap (fun i => (tasks.get? i).map f) = tasks.map f := by
  intro tasks
  induction tasks with
  | nil => simp
  | cons t ts ih =>
    rw [List.length_cons, List.range_succ_eq_map]
    rw [List.filterMap_cons]
    rw [List.filterMap_map]
    have hcomp : ((fun i => ((t :: ts).get? i).map f) ∘ Nat.succ) =
        fun i => (ts.get? i).map f := by
      funext i
      simp
    rw [hcomp, ih]
    simp

theorem poolReassembled_eq_map {α β : Type} (f : α → β) (tasks : List α)
    (order : List Nat) (hperm : order.Perm (List.range tasks.length)) :
    poolReassembled f tasks order = tasks.map f := by
  have hbound : ∀ j ∈ order, j < tasks.length := by
    intro j hj
    have := hperm.mem_iff.mp hj
    simpa [List.mem_range] using this
  unfold poolReassembled
  have hcongr : ∀ i ∈ List.range tasks.length,
      (poolCompleted f tasks order).lookup i = (tasks.get? i).map f := by
    intro i hi
    rw [poolCompleted_lookup f tasks order hbound i, if_pos]
    exact hperm.mem_iff.mpr hi
  rw [List.filterMap_congr hcongr]
  exact range_filterMap_get f tasks

/-- Claim C1: for every input scene list and any two completion orders of
the worker pool (with any worker counts), `process_scenes_parallel` returns
exactly the same collection, and that collection equals the sequential map
of `process_single_scene_worker` over the input followed by filtering out
the failed scenes — surviving scenes in original input order, identical
content. -/
theorem parallel_preprocessing_refines_sequential (env : Env) (fps : Nat)
    (scenes : List SceneItem) (w1 w2 : Nat) (order1 order2 : List Nat)
    (h1 : order1.Perm (List.range scenes.length))
    (h2 : order2.Perm (List.range scenes.length)) :
    process_scenes_parallel env fps scenes w1 order1 =
      processScenesSequentialSpec env fps scenes ∧
    process_scenes_parallel env fps scenes w1 order1 =
      process_scenes_parallel env fps scenes w2 order2 := by
  have key : ∀ (w : Nat) (order : List Nat), order.Perm (List.range scenes.length) →
      process_scenes_parallel env fps scenes w order =
        processScenesSequentialSpec env fps scenes := by
    intro w order hperm
    unfold process_scenes_parallel processScenesSequentialSpec
    rw [poolReassembled_eq_map _ _ _ hperm]
    rfl
  exact ⟨key w1 order1 h1, (key w1 order1 h1).trans (key w2 order2 h2).symm⟩

/-- A concrete environment for witnesses: both asset files of the first
scene exist, every probe reports one second. -/
def envW : Env :=
  { fileExists := fun _ => true
    probe := fun _ => some 1 }

/-- Two concrete scenes for witnesses: the first valid, the second with a
missing image path. -/
def scenesW : List SceneItem :=
  [{ image_path := some "img1.png", audio_path := some "aud1.wav", audio_text := "hi" },
   { image_path := none, audio_path := some "aud2.wav", audio_text := "" }]

/-- Witness for C1: two scenes, completion orders `[1,0]` and `[0,1]`,
pool widths 1 and 8. -/
theorem parallel_preprocessing_refines_sequential_witness :
    (List.Perm [1, 0] (List.range 2) ∧ List.Perm [0, 1] (List.range 2)) ∧
    (process_scenes_parallel envW 24 scenesW 1 [1, 0] =
      processScenesSequentialSpec envW 24 scenesW ∧
    process_scenes_parallel envW 24 scenesW 1 [1, 0] =
      process_scenes_parallel envW 24 scenesW 8 [0, 1]) :=
  ⟨⟨by decide, by decide⟩,
    parallel_preprocessing_refines_sequential envW 24 scenesW 1 8 [1, 0] [0, 1]
      (by decide) (by decide)⟩

/-! ### Claim C2 -/

theorem worker_some_shape (env : Env) (fps : Nat) (item : SceneItem) (t : SceneTiming)
    (hw : process_single_scene_worker env fps item = some t) :
    0 < t.audio_duration ∧ t.total_frames = ⌊t.audio_duration * (fps : ℚ)⌋₊ := by
  unfold process_single_scene_worker at hw
  rcases item with ⟨ip, ap, tx⟩
  cases ip with
  | none => simp at hw
  | some ipv =>
    dsimp only at hw
    split at hw
    · simp at hw
    · cases ap with
      | none => simp at hw
      | some apv =>
        dsimp only at hw
        split at hw
        · simp at hw
        · cases hp : env.probe apv with
          | none =>
            rw [hp] at hw
            simp at hw
          | some d =>
            rw [hp] at hw
            dsimp only at hw
            split at hw
            · simp at hw
            · next h3 =>
              rw [Option.some_inj] at hw
              subst hw
              exact ⟨lt_of_not_le h3, rfl⟩

theorem lookup_isSome_of_mem_keys {m : List (Nat × Img)} {k : Nat}
    (h : k ∈ m.map Prod.fst) : (m.lookup k).isSome := by
  induction m with
  | nil => simp at h
  | cons p rest ih =>
    by_cases he : k = p.1
    · simp [List.lookup, he]
    · have hne : (k == p.1) = false := by simp [he]
      simp only [List.lookup, hne]
      apply ih
      have h2 : k = p.1 ∨ k ∈ rest.map Prod.fst := by simpa using h
      rcases h2 with h2 | h2
      · exact absurd h2 he
      · exact h2

theorem mem_insertSorted (x : Nat) :
    ∀ (l : List Nat) (y : Nat), y ∈ insertSorted x l ↔ y = x ∨ y ∈ l := by
  intro l
  induction l with
  | nil => intro y; simp [insertSorted]
  | cons z zs ih =>
    intro y
    rw [insertSorted]
    by_cases h : x ≤ z
    · rw [if_pos h]
      simp [List.mem_cons]
    · rw [if_neg h]
      simp only [List.mem_cons, ih y]
      tauto

theorem mem_sortNat (l : List Nat) (y : Nat) : y ∈ sortNat l ↔ y ∈ l := by
  induction l with
  | nil => simp [sortNat]
  | cons z zs ih =>
    rw [sortNat, List.foldr_cons]
    rw [mem_insertSorted]
    rw [show List.foldr insertSorted [] zs = sortNat zs from rfl]
    simp [ih, List.mem_cons]

theorem minByFirst_mem (f : Nat → Nat) :
    ∀ (l : List Nat) (x : Nat), minByFirst f l = some x → x ∈ l := by
  intro l
  induction l with
  | nil =>
    intro x hx
    simp [minByFirst] at hx
  | cons z zs ih =>
    intro x hx
    rw [minByFirst] at hx
    cases hm : minByFirst f zs with
    | none =>
      rw [hm] at hx
      dsimp only at hx
      rw [Option.some_inj] at hx
      simp [hx]
    | some y =>
      rw [hm] at hx
      dsimp only at hx
      by_cases hlt : f y < f z
      · rw [if_pos hlt, Option.some_inj] at hx
        subst hx
        exact List.mem_cons_of_mem _ (ih _ hm)
      · rw [if_neg hlt, Option.some_inj] at hx
        simp [hx]

theorem minByFirst_ne_none (f : Nat → Nat) (z : Nat) (zs : List Nat) :
    minByFirst f (z :: zs) ≠ none := by
  rw [minByFirst]
  cases minByFirst f zs with
  | none => simp
  | some y =>
    dsimp only
    split <;> simp

theorem getClosestZoomKey_total {m : List (Nat × Img)} (hm : m ≠ []) (fn s : Nat) :
    ∃ k, getClosestZoomKey m fn s = some k ∧ (m.lookup k).isSome := by
  unfold getClosestZoomKey
  by_cases hp : (m.lookup (fn / s * s)).isSome
  · exact ⟨fn / s * s, by simp [hp], hp⟩
  · rw [if_neg hp]
    have hkeys : m.map Prod.fst ≠ [] := by
      simpa [List.map_eq_nil_iff] using hm
    have hsort : sortNat (m.map Prod.fst) ≠ [] := by
      intro hcon
      rcases List.exists_mem_of_ne_nil _ hkeys with ⟨y, hy⟩
      have := (mem_sortNat (m.map Prod.fst) y).mpr hy
      rw [hcon] at this
      simp at this
    rcases hsk : sortNat (m.map Prod.fst) with _ | ⟨a, rest⟩
    · exact absurd hsk hsort
    · rw [← hsk]
      cases hmin : minByFirst (fun x => Nat.dist x fn) (sortNat (m.map Prod.fst)) with
      | none =>
        rw [hsk] at hmin
        exact absurd hmin (minByFirst_ne_none _ a rest)
      | some k =>
        refine ⟨k, rfl, ?_⟩
        have hk := minByFirst_mem _ _ _ hmin
        exact lookup_isSome_of_mem_keys ((mem_sortNat _ _).mp hk)

theorem updateKey_keys (m : List (Nat × Img)) (k : Nat) (v : Img) :
    (updateKey m k v).length = m.length := by
  simp [updateKey]

theorem sceneStep_emits (overlay : Option OImg) (s : Nat)
    (st : List (Nat × Img) × List Img) (fn : Nat) (hne : st.1 ≠ []) :
    (sceneStep overlay s st fn).2.length = st.2.length + 1 ∧
    (sceneStep overlay s st fn).1 ≠ [] := by
  obtain ⟨k, hk, hsome⟩ := getClosestZoomKey_total hne fn s
  obtain ⟨bg, hbg⟩ := Option.isSome_iff_exists.mp hsome
  unfold sceneStep
  rw [hk]
  dsimp only
  rw [hbg]
  dsimp only
  cases overlay with
  | none => simpa using hne
  | some ov =>
    dsimp only
    constructor
    · simp
    · intro hcon
      have h2 := updateKey_keys st.1 k (fast_composite bg ov)
      rw [hcon] at h2
      simp at h2
      exact hne (List.length_eq_zero.mp h2.symm)

theorem writeFrames_count (overlay : Option OImg) (s : Nat) :
    ∀ (fns : List Nat) (m : List (Nat × Img)) (out : List Img), m ≠ [] →
      (fns.foldl (sceneStep overlay s) (m, out)).2.length = out.length + fns.length ∧
      (fns.foldl (sceneStep overlay s) (m, out)).1 ≠ [] := by
  intro fns
  induction fns with
  | nil =>
    intro m out hm
    simpa using hm
  | cons fn rest ih =>
    intro m out hm
    simp only [List.foldl_cons]
    obtain ⟨hlen, hne⟩ := sceneStep_emits overlay s (m, out) fn hm
    rcases hst : sceneStep overlay s (m, out) fn with ⟨m2, out2⟩
    rw [hst] at hlen hne
    dsimp only at hlen hne
    obtain ⟨ih1, ih2⟩ := ih m2 out2 hne
    refine ⟨?_, ih2⟩
    rw [ih1]
    simp only [List.length_cons]
    omega

theorem writeScene_count (scene : ProcessedScene) (s : Nat)
    (h : scene.total_frames = 0 ∨ scene.zoom_frames ≠ []) :
    (writeScene scene s).2.length = scene.total_frames := by
  rcases h with h | h
  · rw [writeScene, h]
    rfl
  · have := (writeFrames_count scene.text_overlay s (List.range scene.total_frames)
      scene.zoom_frames [] h).1
    rw [writeScene]
    rw [this]
    simp

theorem video_fold (scenes : List ProcessedScene) :
    ∀ acc : List Img × List String,
      scenes.foldl
        (fun acc scene => (acc.1 ++ (writeScene scene sample_rate).2,
          acc.2 ++ [scene.audio_path])) acc =
      (acc.1 ++ (scenes.map (fun sc => (writeScene sc sample_rate).2)).join,
        acc.2 ++ scenes.map ProcessedScene.audio_path) := by
  induction scenes with
  | nil =>
    intro acc
    simp
  | cons sc scs ih =>
    intro acc
    simp only [List.foldl_cons, ih, List.map_cons, List.join]
    simp [List.append_assoc]

/-- Claim C2: for every scene the worker accepts, its probed duration `D` is
positive and `total_frames = ⌊D * fps⌋` (stated with the integer floor); and
for every list of processed scenes the encoder sink receives exactly
`total_frames` frames per scene, concatenated in scene order, so the total
number of frames written equals the sum of the scenes' `total_frames`. -/
theorem total_frames_floor_and_sink_count (env : Env) (fps : Nat) (item : SceneItem)
    (t : SceneTiming) (scenes : List ProcessedScene)
    (hw : process_single_scene_worker env fps item = some t)
    (hscenes : ∀ sc ∈ scenes, sc.total_frames = 0 ∨ sc.zoom_frames ≠ []) :
    0 < t.audio_duration ∧
    (t.total_frames : ℤ) = ⌊t.audio_duration * (fps : ℚ)⌋ ∧
    create_video_from_preprocessed scenes true =
      some ((scenes.map (fun sc => (writeScene sc sample_rate).2)).join,
        scenes.map ProcessedScene.audio_path) ∧
    (∀ sc ∈ scenes, (writeScene sc sample_rate).2.length = sc.total_frames) ∧
    ((scenes.map (fun sc => (writeScene sc sample_rate).2)).join).length =
      (scenes.map ProcessedScene.total_frames).sum := by
  obtain ⟨hd, hf⟩ := worker_some_shape env fps item t hw
  have hcount : ∀ sc ∈ scenes, (writeScene sc sample_rate).2.length = sc.total_frames :=
    fun sc hsc => writeScene_count sc sample_rate (hscenes sc hsc)
  refine ⟨hd, ?_, ?_, hcount, ?_⟩
  · rw [hf]
    exact Int.natCast_floor_eq_floor
      (mul_nonneg (le_of_lt hd) (by exact_mod_cast Nat.zero_le fps))
  · unfold create_video_from_preprocessed
    rw [if_pos rfl, video_fold]
    simp
  · rw [List.length_join, List.map_map]
    apply congrArg
    apply List.map_congr_left
    intro sc hsc
    exact hcount sc hsc

/-- One valid concrete scene item for the C2 witness. -/
def itemW : SceneItem :=
  { image_path := some "img1.png", audio_path := some "aud1.wav", audio_text := "hi" }

/-- The timing the worker computes for `itemW` under `envW` at 24 fps. -/
def timingW : SceneTiming :=
  { image_path := "img1.png", audio_path := "aud1.wav", text := "hi",
    audio_duration := 1, total_frames := ⌊(1 : ℚ) * ((24 : Nat) : ℚ)⌋₊ }

/-- A concrete one-pixel preprocessed scene without overlay, two frames. -/
def sceneNoOv : ProcessedScene :=
  { audio_path := "aud1.wav", text_overlay := none,
    zoom_frames := [(0, [[⟨10, 20, 30⟩]])], total_frames := 2, duration := 1 }

/-- Witness for C2 at `itemW` / `envW` / one concrete scene. -/
theorem total_frames_floor_and_sink_count_witness :
    (process_single_scene_worker envW 24 itemW = some timingW ∧
      ∀ sc ∈ [sceneNoOv], sc.total_frames = 0 ∨ sc.zoom_frames ≠ []) ∧
    (0 < timingW.audio_duration ∧
    (timingW.total_frames : ℤ) = ⌊timingW.audio_duration * ((24 : Nat) : ℚ)⌋ ∧
    create_video_from_preprocessed [sceneNoOv] true =
      some (([sceneNoOv].map (fun sc => (writeScene sc sample_rate).2)).join,
        [sceneNoOv].map ProcessedScene.audio_path) ∧
    (∀ sc ∈ [sceneNoOv], (writeScene sc sample_rate).2.length = sc.total_frames) ∧
    (([sceneNoOv].map (fun sc => (writeScene sc sample_rate).2)).join).length =
      ([sceneNoOv].map ProcessedScene.total_frames).sum) :=
  ⟨⟨rfl, by decide⟩,
    total_frames_floor_and_sink_count envW 24 itemW timingW [sceneNoOv]
      rfl (by decide)⟩

/-! ### Claims C4 and C5 -/

/-- `n`-fold repeated compositing of the overlay onto a buffer: the state of
a cached zoom buffer after `n` frames have been composited onto it. -/
def blendIter (bg : Img) (ov : OImg) : Nat → Img
  | 0 => bg
  | n + 1 => fast_composite (blendIter bg ov n) ov

theorem getClosestZoomKey_singleton (x : Img) (fn s : Nat) :
    getClosestZoomKey [(0, x)] fn s = some 0 := by
  unfold getClosestZoomKey
  by_cases h : fn / s * s = 0
  · rw [h]
    simp [List.lookup]
  · have hne : (fn / s * s == 0) = false := by simp [h]
    simp [List.lookup, hne, sortNat, insertSorted, minByFirst]

theorem writeScene_singleKey (ap : String) (bg : Img) (ov : OImg) (d : ℚ) (s : Nat) :
    ∀ n : Nat,
      writeScene
        { audio_path := ap, text_overlay := some ov, zoom_frames := [(0, bg)],
          total_frames := n, duration := d } s =
      ([(0, blendIter bg ov n)], (List.range n).map (fun i => blendIter bg ov (i + 1))) := by
  intro n
  induction n with
  | zero => simp [writeScene, blendIter]
  | succ n ih =>
    rw [writeScene] at ih ⊢
    dsimp only at ih ⊢
    rw [List.range_succ, List.foldl_append, ih]
    simp only [List.foldl_cons, List.foldl_nil]
    unfold sceneStep
    rw [getClosestZoomKey_singleton]
    dsimp only
    simp [List.lookup, updateKey, blendIter, List.map_append]

/-- The one-pixel pristine zoom frame for the C4/C5 concrete scenes. -/
def bgC : Img := [[⟨0, 0, 0⟩]]

/-- The one-pixel half-transparent white overlay for the C4/C5 scenes. -/
def ovC : OImg := [[⟨255, 255, 255, 128⟩]]

/-- A captioned one-pixel scene with two frames, both of which resolve to
the single materialised zoom key `0`. -/
def sceneCap : ProcessedScene :=
  { audio_path := "aud1.wav", text_overlay := some ovC,
    zoom_frames := [(0, bgC)], total_frames := 2, duration := 1 }

/-- Claim C5: `fast_composite` does not leave its background argument
unchanged — the blended result is written into the cached zoom buffer, so
after each composited frame the zoom-frame map holds the emitted frame
itself, and each later frame resolving to the same key is blended over the
already-composited buffer.  Concretely, for `sceneCap` the two written
frames are the once- and twice-composited buffers, the second differs from
the first, and the cache no longer holds the pristine frame afterwards. -/
theorem fast_composite_mutates_cache :
    (∀ (ap : String) (bg : Img) (ov : OImg) (d : ℚ) (s n : Nat),
      writeScene
        { audio_path := ap, text_overlay := some ov, zoom_frames := [(0, bg)],
          total_frames := n, duration := d } s =
      ([(0, blendIter bg ov n)], (List.range n).map (fun i => blendIter bg ov (i + 1)))) ∧
    (writeScene sceneCap sample_rate).2 = [blendIter bgC ovC 1, blendIter bgC ovC 2] ∧
    blendIter bgC ovC 2 ≠ blendIter bgC ovC 1 ∧
    (writeScene sceneCap sample_rate).1 ≠ [(0, bgC)] :=
  ⟨fun ap bg ov d s n => writeScene_singleKey ap bg ov d s n,
    by decide, by decide, by decide⟩

/-- Counterexample to C4 as stated: in `sceneCap` the second written frame
(frame index 1) is not the alpha blend of the overlay over the scene's
pristine zoom frame for that index — the pristine buffer was already
mutated by the compositing of frame 0. -/
theorem overlay_pristine_blend_counterexample :
    (writeScene sceneCap sample_rate).2.get? 1 ≠ some (fast_composite bgC ovC) := by
  decide

/-- How many of the frame indices below `i` resolve to the materialised key
`k` under the nearest-zoom-frame rule: exactly how often the buffer cached
at `k` has been composited onto before frame `i` is written. -/
def hitCount (m : List (Nat × Img)) (s i k : Nat) : Nat :=
  ((List.range i).filter (fun j => getClosestZoomKey m j s == some k)).length

theorem hitCount_succ_hit {m : List (Nat × Img)} {s i k : Nat}
    (h : getClosestZoomKey m i s = some k) :
    hitCount m s (i + 1) k = hitCount m s i k + 1 := by
  unfold hitCount
  rw [List.range_succ, List.filter_append, List.length_append]
  simp [h]

theorem hitCount_succ_miss {m : List (Nat × Img)} {s i k : Nat}
    (h : getClosestZoomKey m i s ≠ some k) :
    hitCount m s (i + 1) k = hitCount m s i k := by
  unfold hitCount
  rw [List.range_succ, List.filter_append, List.length_append]
  simp [h]

theorem lookup_isSome_iff {m : List (Nat × Img)} {k : Nat} :
    (m.lookup k).isSome = true ↔ k ∈ m.map Prod.fst := by
  induction m with
  | nil => simp [List.lookup]
  | cons p rest ih =>
    by_cases he : k = p.1
    · have hb : (k == p.1) = true := by simp [he]
      simp [List.lookup, hb, he]
    · have hb : (k == p.1) = false := by simp [he]
      simp only [List.lookup, hb, List.map_cons, List.mem_cons]
      rw [ih]
      simp [he]

/-- The nearest-zoom-frame rule depends only on the key set of the map, so
it is unaffected by the in-place mutation of the cached buffers. -/
theorem getClosestZoomKey_keys_congr {m1 m2 : List (Nat × Img)} (fn s : Nat)
    (hkeys : m1.map Prod.fst = m2.map Prod.fst) :
    getClosestZoomKey m1 fn s = getClosestZoomKey m2 fn s := by
  simp only [getClosestZoomKey]
  by_cases hc : fn / s * s ∈ m2.map Prod.fst
  · rw [if_pos (lookup_isSome_iff.mpr (by rw [hkeys]; exact hc)),
      if_pos (lookup_isSome_iff.mpr hc)]
  · have h1 : ¬(m1.lookup (fn / s * s)).isSome = true :=
      fun hcon => hc (hkeys ▸ lookup_isSome_iff.mp hcon)
    have h2 : ¬(m2.lookup (fn / s * s)).isSome = true :=
      fun hcon => hc (lookup_isSome_iff.mp hcon)
    rw [if_neg h1, if_neg h2, hkeys]

theorem updateKey_map_fst (m : List (Nat × Img)) (k : Nat) (v : Img) :
    (updateKey m k v).map Prod.fst = m.map Prod.fst := by
  unfold updateKey
  rw [List.map_map]
  apply List.map_congr_left
  intro p _
  by_cases he : p.1 = k
  · simp [he]
  · simp [he]

theorem lookup_updateKey_self {m : List (Nat × Img)} {k : Nat} (v : Img)
    (h : (m.lookup k).isSome = true) :
    (updateKey m k v).lookup k = some v := by
  induction m with
  | nil => simp [List.lookup] at h
  | cons p rest ih =>
    by_cases he : p.1 = k
    · unfold updateKey
      rw [List.map_cons, if_pos he]
      simp [List.lookup]
    · have hkp : k ≠ p.1 := fun hcon => he hcon.symm
      have hb : (k == p.1) = false := by simp [hkp]
      unfold updateKey
      rw [List.map_cons, if_neg he]
      simp only [List.lookup, hb]
      simp only [List.lookup, hb] at h
      exact ih h

theorem lookup_updateKey_ne {m : List (Nat × Img)} {k k2 : Nat} (v : Img)
    (hne : k2 ≠ k) : (updateKey m k v).lookup k2 = m.lookup k2 := by
  induction m with
  | nil => rfl
  | cons p rest ih =>
    unfold updateKey
    rw [List.map_cons]
    by_cases he : p.1 = k
    · rw [if_pos he]
      have hb : (k2 == k) = false := by simp [hne]
      have hb2 : (k2 == p.1) = false := by
        simp [show k2 ≠ p.1 from fun hcon => hne (hcon.trans he)]
      simp only [List.lookup, hb, hb2]
      exact ih
    · rw [if_neg he]
      cases hbe : k2 == p.1 with
      | true => simp [List.lookup, hbe]
      | false =>
        simp only [List.lookup, hbe]
        exact ih

/-- The full state of the per-scene frame loop for an arbitrary zoom map:
keys are preserved, each cached buffer at key `k` equals the pristine buffer
composited `hitCount` times, one frame is emitted per index, and frame `j`
is the blend of the overlay over the buffer cached at its key at write
time. -/
theorem writeFrames_hits (ov : OImg) (s : Nat) (m : List (Nat × Img)) (hm : m ≠ []) :
    ∀ i : Nat,
      ((List.range i).foldl (sceneStep (some ov) s) (m, [])).1.map Prod.fst =
          m.map Prod.fst ∧
      ((List.range i).foldl (sceneStep (some ov) s) (m, [])).2.length = i ∧
      (∀ k v, m.lookup k = some v →
        ((List.range i).foldl (sceneStep (some ov) s) (m, [])).1.lookup k =
          some (blendIter v ov (hitCount m s i k))) ∧
      (∀ j, j < i → ∀ k v, getClosestZoomKey m j s = some k → m.lookup k = some v →
        ((List.range i).foldl (sceneStep (some ov) s) (m, [])).2.get? j =
          some (blendIter v ov (hitCount m s j k + 1))) := by
  intro i
  induction i with
  | zero =>
    refine ⟨by simp, by simp, ?_, ?_⟩
    · intro k v hkv
      simpa [hitCount, blendIter] using hkv
    · intro j hj
      exact absurd hj (Nat.not_lt_zero j)
  | succ i ih =>
    obtain ⟨ihKeys, ihLen, ihLook, ihOut⟩ := ih
    rcases hst : (List.range i).foldl (sceneStep (some ov) s) (m, []) with ⟨mc, outc⟩
    rw [hst] at ihKeys ihLen ihLook ihOut
    dsimp only at ihKeys ihLen ihLook ihOut
    obtain ⟨k0, hk0m, hk0look⟩ := getClosestZoomKey_total hm i s
    obtain ⟨v0, hv0⟩ := Option.isSome_iff_exists.mp hk0look
    have hkc : getClosestZoomKey mc i s = some k0 := by
      rw [getClosestZoomKey_keys_congr i s ihKeys, hk0m]
    have hlc : mc.lookup k0 = some (blendIter v0 ov (hitCount m s i k0)) :=
      ihLook k0 v0 hv0
    have hstep : sceneStep (some ov) s (mc, outc) i =
        (updateKey mc k0 (blendIter v0 ov (hitCount m s i k0 + 1)),
          outc ++ [blendIter v0 ov (hitCount m s i k0 + 1)]) := by
      simp only [sceneStep, hkc, hlc]
      rfl
    rw [List.range_succ, List.foldl_append, hst, List.foldl_cons, List.foldl_nil, hstep]
    dsimp only
    refine ⟨?_, ?_, ?_, ?_⟩
    · rw [updateKey_map_fst]
      exact ihKeys
    · rw [List.length_append, ihLen]
      rfl
    · intro k v hkv
      by_cases hke : k = k0
      · subst hke
        have hveq : v = v0 := by
          rw [hv0] at hkv
          exact (Option.some_inj.mp hkv).symm
        subst hveq
        rw [lookup_updateKey_self _ (by rw [hlc]; rfl), hitCount_succ_hit hk0m]
      · rw [lookup_updateKey_ne _ hke, ihLook k v hkv, hitCount_succ_miss]
        intro hcon
        rw [hk0m] at hcon
        exact hke (Option.some_inj.mp hcon).symm
    · intro j hj k v hkj hkv
      rcases Nat.lt_succ_iff_lt_or_eq.mp hj with hj2 | hj2
      · rw [List.get?_append (by rw [ihLen]; exact hj2)]
        exact ihOut j hj2 k v hkj hkv
      · subst hj2
        have hkk : k = k0 := Option.some_inj.mp (hkj.symm.trans hk0m)
        subst hkk
        have hveq : v = v0 := by
          rw [hv0] at hkv
          exact (Option.some_inj.mp hkv).symm
        subst hveq
        rw [List.get?_append_right (le_of_eq ihLen), ihLen]
        simp

/-- Claim C4 amended: for every scene with a text overlay and an arbitrary
zoom-frame map, every written frame equals the per-channel alpha blend of
the overlay over the scene's cached zoom buffer at write time — the
pristine zoom frame for that frame's key composited once for each earlier
frame of the scene that resolved to the same materialised key
(`hitCount`) — and the pristine background is used exactly for the first
such frame (`blendIter v ov 0 = v`). -/
theorem overlay_blend_cached_background (ap : String) (ov : OImg) (d : ℚ)
    (m : List (Nat × Img)) (s n i k : Nat) (v : Img)
    (hi : i < n) (hk : getClosestZoomKey m i s = some k)
    (hv : m.lookup k = some v) :
    (writeScene
        { audio_path := ap, text_overlay := some ov, zoom_frames := m,
          total_frames := n, duration := d } s).2.get? i =
      some (fast_composite (blendIter v ov (hitCount m s i k)) ov) ∧
    blendIter v ov 0 = v := by
  have hm : m ≠ [] := by
    intro hcon
    rw [hcon] at hv
    simp [List.lookup] at hv
  have hmain := (writeFrames_hits ov s m hm n).2.2.2 i hi k v hk hv
  rw [writeScene]
  dsimp only
  constructor
  · rw [hmain]
    rfl
  · rfl

/-- A two-key zoom map (keys 0 and 4) for the amended-C4 witness. -/
def mW : List (Nat × Img) := [(0, [[⟨0, 0, 0⟩]]), (4, [[⟨50, 60, 70⟩]])]

/-- Witness for the amended C4 on a two-key scene: frame 5 of 6 resolves to
key 4, which one earlier frame (index 4) already composited onto. -/
theorem overlay_blend_cached_background_witness :
    (5 < 6 ∧ getClosestZoomKey mW 5 4 = some 4 ∧
      mW.lookup 4 = some [[⟨50, 60, 70⟩]]) ∧
    ((writeScene
        { audio_path := "aud1.wav", text_overlay := some ovC, zoom_frames := mW,
          total_frames := 6, duration := 1 } 4).2.get? 5 =
      some (fast_composite (blendIter [[⟨50, 60, 70⟩]] ovC (hitCount mW 4 5 4)) ovC) ∧
    blendIter [[⟨50, 60, 70⟩]] ovC 0 = [[⟨50, 60, 70⟩]]) :=
  ⟨⟨by decide, by decide, by decide⟩,
    overlay_blend_cached_background "aud1.wav" ovC 1 mW 4 6 5 4 [[⟨50, 60, 70⟩]]
      (by decide) (by decide) (by decide)⟩

/-! ### Claim C7 -/

/-- The scene-level failure conditions: missing or empty image path, missing
image file, missing or empty audio path, missing audio file, duration probe
failure, or probed duration ≤ 0. -/
def sceneFails (env : Env) (item : SceneItem) : Prop :=
  item.image_path = none ∨
  (∃ p, item.image_path = some p ∧ (p = "" ∨ env.fileExists p = false)) ∨
  item.audio_path = none ∨
  (∃ p, item.audio_path = some p ∧ (p = "" ∨ env.fileExists p = false)) ∨
  (∃ p, item.audio_path = some p ∧ env.probe p = none) ∨
  (∃ p d, item.audio_path = some p ∧ env.probe p = some d ∧ d ≤ 0)

theorem worker_none_iff (env : Env) (fps : Nat) (item : SceneItem) :
    process_single_scene_worker env fps item = none ↔ sceneFails env item := by
  rcases item with ⟨ip, ap, tx⟩
  unfold process_single_scene_worker sceneFails
  cases ip with
  | none => simp
  | some ipv =>
    dsimp only
    by_cases h1 : ipv = "" ∨ env.fileExists ipv = false
    · rw [if_pos h1]
      simp [h1]
    · rw [if_neg h1]
      cases ap with
      | none => simp
      | some apv =>
        dsimp only
        by_cases h2 : apv = "" ∨ env.fileExists apv = false
        · rw [if_pos h2]
          simp [h1, h2]
        · rw [if_neg h2]
          cases hp : env.probe apv with
          | none => simp [h1, h2, hp]
          | some d =>
            dsimp only
            by_cases h3 : d ≤ 0
            · rw [if_pos h3]
              simp [h1, h2, hp, h3]
            · rw [if_neg h3]
              simp [h1, h2, hp, h3]

/-- Claim C7: a scene fails preprocessing exactly under the scene-level
failure conditions; each failure drops only the offending scene (the
survivors are the per-scene filter of the input, in order); and — when the
surrounding stages succeed (JSON loads, ffmpeg present, downstream video
creation succeeds) — the whole operation returns success if and only if the
failures left at least one surviving scene. -/
theorem scene_failures_isolated (env : Env) (renv : RenderEnv)
    (imread : String → Option Img) (data : List SceneItem) (item : SceneItem)
    (fps videoW videoH : Nat) (order : List Nat)
    (hperm : order.Perm (List.range data.length)) :
    (process_single_scene_worker env fps item = none ↔ sceneFails env item) ∧
    process_scenes_parallel env fps data 8 order =
      data.filterMap (process_single_scene_worker env fps) ∧
    (create_video_from_json env renv imread (some data) true (fun _ => true)
        fps videoW videoH order = true ↔
      data.filterMap (process_single_scene_worker env fps) ≠ []) := by
  have hpar : process_scenes_parallel env fps data 8 order =
      data.filterMap (process_single_scene_worker env fps) := by
    unfold process_scenes_parallel
    rw [poolReassembled_eq_map _ _ _ hperm, List.filterMap_map]
    rfl
  refine ⟨worker_none_iff env fps item, hpar, ?_⟩
  unfold create_video_from_json
  dsimp only
  rw [if_neg (by simp)]
  unfold preprocess_all_scenes
  rw [hpar]
  by_cases hnil : data.filterMap (process_single_scene_worker env fps) = []
  · rw [hnil]
    simp
  · rw [if_neg (by simpa using hnil)]
    simp [hnil]

/-- A concrete rasteriser model for witnesses. -/
def renvW : RenderEnv := { render := fun _ _ _ => [[⟨0, 0, 0, 0⟩]] }

/-- A concrete image decoder model for witnesses. -/
def imreadW : String → Option Img := fun _ => some [[⟨5, 6, 7⟩]]

/-- Witness for C7: `scenesW` (one valid scene, one with a missing image
path) under `envW`, completion order `[1, 0]`. -/
theorem scene_failures_isolated_witness :
    List.Perm [1, 0] (List.range scenesW.length) ∧
    ((process_single_scene_worker envW 24 (scenesW.getD 1 itemW) = none ↔
        sceneFails envW (scenesW.getD 1 itemW)) ∧
    process_scenes_parallel envW 24 scenesW 8 [1, 0] =
      scenesW.filterMap (process_single_scene_worker envW 24) ∧
    (create_video_from_json envW renvW imreadW (some scenesW) true (fun _ => true)
        24 2 2 [1, 0] = true ↔
      scenesW.filterMap (process_single_scene_worker envW 24) ≠ [])) :=
  ⟨by decide,
    scene_failures_isolated envW renvW imreadW scenesW (scenesW.getD 1 itemW)
      24 2 2 [1, 0] (by decide)⟩

/-! ### Claim C8 -/

theorem mem_fsRemove {fs : FS} {p q : String} : q ∈ fsRemove fs p ↔ q ∈ fs ∧ q ≠ p := by
  simp [fsRemove, List.mem_filter]

theorem cleanup_preserves_not_mem (removeOk : String → Bool) :
    ∀ (files : List String) (fs : FS) (q : String), q ∉ fs →
      q ∉ cleanup_temp_files removeOk files fs := by
  intro files
  induction files with
  | nil =>
    intro fs q hq
    exact hq
  | cons p ps ih =>
    intro fs q hq
    rw [cleanup_temp_files, List.foldl_cons]
    apply ih
    by_cases hc : p ∈ fs ∧ removeOk p = true
    · rw [if_pos hc]
      intro hmem
      exact hq (mem_fsRemove.mp hmem).1
    · rw [if_neg hc]
      exact hq

theorem cleanup_not_mem (removeOk : String → Bool) :
    ∀ (files : List String) (fs : FS) (p : String), removeOk p = true → p ∈ files →
      p ∉ cleanup_temp_files removeOk files fs := by
  intro files
  induction files with
  | nil =>
    intro fs p _ hp
    simp at hp
  | cons q qs ih =>
    intro fs p hok hp
    rw [cleanup_temp_files, List.foldl_cons]
    rcases List.mem_cons.mp hp with rfl | hp2
    · apply cleanup_preserves_not_mem
      by_cases hqf : p ∈ fs
      · rw [if_pos ⟨hqf, hok⟩]
        intro hmem
        exact (mem_fsRemove.mp hmem).2 rfl
      · rw [if_neg (fun hc => hqf hc.1)]
        exact hqf
    · exact ih _ p hok hp2

/-- Counterexample to C8 as stated: a run whose audio concatenation exits
non-zero returns failure without invoking cleanup, leaving the intermediate
silent video on disk — cleanup does not happen "on every run regardless of
success or failure". -/
theorem cleanup_on_failure_counterexample :
    (finalize_video SubprocOutcome.failExit SubprocOutcome.ok (fun _ => true)
        temp_video_file ["a1.wav", "a2.wav"] "story_video.mp4"
        [temp_video_file, "a1.wav", "a2.wav"]).1 = false ∧
    temp_video_file ∈
      (finalize_video SubprocOutcome.failExit SubprocOutcome.ok (fun _ => true)
        temp_video_file ["a1.wav", "a2.wav"] "story_video.mp4"
        [temp_video_file, "a1.wav", "a2.wav"]).2 := by
  decide

theorem combine_fs_mem (co : SubprocOutcome) (audioFiles : List String)
    (outPath : String) (fs : FS) (q : String)
    (hq1 : q ≠ audio_list_file) (hq2 : q ≠ outPath) :
    q ∈ (combine_audio_files co audioFiles outPath fs).2 ↔ q ∈ fs := by
  unfold combine_audio_files
  by_cases hlen : audioFiles.length = 1
  · rw [if_pos hlen]
    cases co <;> simp [hq2]
  · rw [if_neg hlen]
    cases co <;> simp [mem_fsRemove, List.mem_cons, hq1, hq2]

theorem merge_fs_mem (mo : SubprocOutcome) (outPath : String) (fs : FS) (q : String)
    (hq : q ≠ outPath) : q ∈ (merge_video_audio mo outPath fs).2 ↔ q ∈ fs := by
  cases mo <;> simp [merge_video_audio, hq]

theorem combine_ok_out_mem (co : SubprocOutcome) (audioFiles : List String)
    (outPath : String) (fs fs1 : FS)
    (h : combine_audio_files co audioFiles outPath fs = (true, fs1)) :
    outPath ∈ fs1 := by
  unfold combine_audio_files at h
  by_cases hlen : audioFiles.length = 1
  · rw [if_pos hlen] at h
    cases co with
    | ok =>
      dsimp only at h
      rw [Prod.mk.injEq] at h
      rw [← h.2]
      exact List.mem_cons_self _ _
    | failExit => simp at h
    | exc => simp at h
  · rw [if_neg hlen] at h
    cases co with
    | ok =>
      dsimp only at h
      rw [Prod.mk.injEq] at h
      rw [← h.2]
      exact List.mem_cons_self _ _
    | failExit => simp at h
    | exc => simp at h

theorem merge_ok_shape (mo : SubprocOutcome) (outPath : String) (fs fs2 : FS)
    (h : merge_video_audio mo outPath fs = (true, fs2)) : fs2 = outPath :: fs := by
  cases mo with
  | ok =>
    simp only [merge_video_audio] at h
    rw [Prod.mk.injEq] at h
    exact h.2.symm
  | failExit => simp [merge_video_audio] at h
  | exc => simp [merge_video_audio] at h

theorem merge_fail_shape (mo : SubprocOutcome) (outPath : String) (fs fs2 : FS)
    (h : merge_video_audio mo outPath fs = (false, fs2)) : fs2 = fs := by
  cases mo with
  | ok => simp [merge_video_audio] at h
  | failExit =>
    simp only [merge_video_audio] at h
    rw [Prod.mk.injEq] at h
    exact h.2.symm
  | exc =>
    simp only [merge_video_audio] at h
    rw [Prod.mk.injEq] at h
    exact h.2.symm

/-- Claim C8 amended: the intermediate silent video and the combined audio
track are removed only when the run ends in overall success (combine and
merge succeed and the muxed output exists) — on such runs both are removed
whenever removal succeeds, while on every failed run the silent video is
left exactly as it was (never removed) and the combined audio track, once
created, is left behind; the audio manifest is removed whenever the concat
subprocess returns, even with a failing exit status, but survives whenever
it raises; and removal is best-effort — a removal failure never changes the
run's boolean result. -/
theorem cleanup_success_only (co mo : SubprocOutcome) (r1 : String → Bool)
    (tempVideo : String) (audioFiles : List String) (outputFilename : String)
    (fs : FS) (hr : ∀ p, r1 p = true)
    (htv1 : tempVideo ≠ audio_list_file) (htv2 : tempVideo ≠ temp_combined_audio)
    (htv3 : tempVideo ≠ outputFilename) :
    ((finalize_video co mo r1 tempVideo audioFiles outputFilename fs).1 = true →
      tempVideo ∉ (finalize_video co mo r1 tempVideo audioFiles outputFilename fs).2 ∧
      temp_combined_audio ∉
        (finalize_video co mo r1 tempVideo audioFiles outputFilename fs).2) ∧
    ((finalize_video co mo r1 tempVideo audioFiles outputFilename fs).1 = false →
      (tempVideo ∈ (finalize_video co mo r1 tempVideo audioFiles outputFilename fs).2 ↔
        tempVideo ∈ fs)) ∧
    (∀ fs1 : FS, audioFiles ≠ [] →
      combine_audio_files co audioFiles temp_combined_audio fs = (true, fs1) →
      (finalize_video co mo r1 tempVideo audioFiles outputFilename fs).1 = false →
      temp_combined_audio ∈
        (finalize_video co mo r1 tempVideo audioFiles outputFilename fs).2) ∧
    (audioFiles.length ≠ 1 → co ≠ SubprocOutcome.exc →
      audio_list_file ∉ (combine_audio_files co audioFiles temp_combined_audio fs).2) ∧
    (audioFiles.length ≠ 1 → co = SubprocOutcome.exc →
      audio_list_file ∈ (combine_audio_files co audioFiles temp_combined_audio fs).2) ∧
    (∀ r2 : String → Bool,
      (finalize_video co mo r1 tempVideo audioFiles outputFilename fs).1 =
      (finalize_video co mo r2 tempVideo audioFiles outputFilename fs).1) := by
  have hnames : audio_list_file ≠ temp_combined_audio := by decide
  refine ⟨?_, ?_, ?_, ?_, ?_, ?_⟩
  · intro hok
    by_cases hemp : audioFiles = []
    · exfalso
      simp [finalize_video, hemp] at hok
    · rcases hcomb : combine_audio_files co audioFiles temp_combined_audio fs with ⟨cb, fs1⟩
      cases cb with
      | false =>
        exfalso
        simp [finalize_video, hemp, hcomb] at hok
      | true =>
        rcases hmer : merge_video_audio mo outputFilename fs1 with ⟨mb, fs2⟩
        cases mb with
        | false =>
          exfalso
          simp [finalize_video, hemp, hcomb, hmer] at hok
        | true =>
          by_cases hfe : outputFilename ∈ fs2
          · have hfin : finalize_video co mo r1 tempVideo audioFiles outputFilename fs =
                (true, cleanup_temp_files r1 [tempVideo, temp_combined_audio] fs2) := by
              simp [finalize_video, hemp, hcomb, hmer, hfe]
            rw [hfin]
            constructor
            · exact cleanup_not_mem r1 _ fs2 tempVideo (hr tempVideo) (by simp)
            · exact cleanup_not_mem r1 _ fs2 temp_combined_audio (hr _) (by simp)
          · exfalso
            simp [finalize_video, hemp, hcomb, hmer, hfe] at hok
  · intro hfail
    by_cases hemp : audioFiles = []
    · have hfin : finalize_video co mo r1 tempVideo audioFiles outputFilename fs =
          (false, fs) := by
        simp [finalize_video, hemp]
      rw [hfin]
    · rcases hcomb : combine_audio_files co audioFiles temp_combined_audio fs with ⟨cb, fs1⟩
      have hfs1 : tempVideo ∈ fs1 ↔ tempVideo ∈ fs := by
        have hmem := combine_fs_mem co audioFiles temp_combined_audio fs tempVideo htv1 htv2
        rw [hcomb] at hmem
        exact hmem
      cases cb with
      | false =>
        have hfin : finalize_video co mo r1 tempVideo audioFiles outputFilename fs =
            (false, fs1) := by
          simp [finalize_video, hemp, hcomb]
        rw [hfin]
        exact hfs1
      | true =>
        rcases hmer : merge_video_audio mo outputFilename fs1 with ⟨mb, fs2⟩
        have hfs2 : tempVideo ∈ fs2 ↔ tempVideo ∈ fs1 := by
          have hmem := merge_fs_mem mo outputFilename fs1 tempVideo htv3
          rw [hmer] at hmem
          exact hmem
        cases mb with
        | false =>
          have hfin : finalize_video co mo r1 tempVideo audioFiles outputFilename fs =
              (false, fs2) := by
            simp [finalize_video, hemp, hcomb, hmer]
          rw [hfin]
          exact hfs2.trans hfs1
        | true =>
          by_cases hfe : outputFilename ∈ fs2
          · exfalso
            have hres : (finalize_video co mo r1 tempVideo audioFiles outputFilename fs).1 =
                true := by
              simp [finalize_video, hemp, hcomb, hmer, hfe]
            rw [hres] at hfail
            exact absurd hfail (by simp)
          · have hfin : finalize_video co mo r1 tempVideo audioFiles outputFilename fs =
                (false, fs2) := by
              simp [finalize_video, hemp, hcomb, hmer, hfe]
            rw [hfin]
            exact hfs2.trans hfs1
  · intro fs1 hemp hcomb hfail
    have htcamem : temp_combined_audio ∈ fs1 :=
      combine_ok_out_mem co audioFiles temp_combined_audio fs fs1 hcomb
    rcases hmer : merge_video_audio mo outputFilename fs1 with ⟨mb, fs2⟩
    cases mb with
    | false =>
      have hfs2 : fs2 = fs1 := merge_fail_shape mo outputFilename fs1 fs2 hmer
      have hfin : finalize_video co mo r1 tempVideo audioFiles outputFilename fs =
          (false, fs2) := by
        simp [finalize_video, hemp, hcomb, hmer]
      rw [hfin, hfs2]
      exact htcamem
    | true =>
      have hfs2 : fs2 = outputFilename :: fs1 := merge_ok_shape mo outputFilename fs1 fs2 hmer
      by_cases hfe : outputFilename ∈ fs2
      · exfalso
        have hres : (finalize_video co mo r1 tempVideo audioFiles outputFilename fs).1 =
            true := by
          simp [finalize_video, hemp, hcomb, hmer, hfe]
        rw [hres] at hfail
        exact absurd hfail (by simp)
      · have hfin : finalize_video co mo r1 tempVideo audioFiles outputFilename fs =
            (false, fs2) := by
          simp [finalize_video, hemp, hcomb, hmer, hfe]
        rw [hfin, hfs2]
        exact List.mem_cons_of_mem _ htcamem
  · intro hlen hco
    unfold combine_audio_files
    rw [if_neg hlen]
    cases co with
    | ok =>
      dsimp only
      intro hmem
      rcases List.mem_cons.mp hmem with he | he
      · exact hnames he
      · exact (mem_fsRemove.mp he).2 rfl
    | failExit =>
      dsimp only
      intro hmem
      exact (mem_fsRemove.mp hmem).2 rfl
    | exc => exact absurd rfl hco
  · intro hlen hco
    subst hco
    unfold combine_audio_files
    rw [if_neg hlen]
    exact List.mem_cons_self _ _
  · intro r2
    unfold finalize_video
    by_cases hemp : audioFiles = []
    · simp only [if_pos hemp]
    · simp only [if_neg hemp]
      rcases combine_audio_files co audioFiles temp_combined_audio fs with ⟨cb, fs1⟩
      cases cb with
      | false => rfl
      | true =>
        dsimp only
        rcases merge_video_audio mo outputFilename fs1 with ⟨mb, fs2⟩
        cases mb with
        | false => rfl
        | true =>
          dsimp only
          by_cases hfe : outputFilename ∈ fs2
          · simp only [if_pos hfe]
          · simp only [if_neg hfe]

/-- The always-succeeding removal function for the C8 witness. -/
def rAllW : String → Bool := fun _ => true

/-- The two-file audio list for the C8 witness. -/
def audW : List String := ["a1.wav", "a2.wav"]

/-- The mux target for the C8 witness. -/
def outW : String := "story_video.mp4"

/-- The starting file system for the C8 witness. -/
def fsW : FS := [temp_video_file, "a1.wav", "a2.wav"]

/-- Witness for the amended C8: a fully successful two-file run. -/
theorem cleanup_success_only_witness :
    ((∀ p : String, rAllW p = true) ∧ temp_video_file ≠ audio_list_file ∧
      temp_video_file ≠ temp_combined_audio ∧ temp_video_file ≠ outW) ∧
    (((finalize_video SubprocOutcome.ok SubprocOutcome.ok rAllW
        temp_video_file audW outW fsW).1 = true →
      temp_video_file ∉ (finalize_video SubprocOutcome.ok SubprocOutcome.ok rAllW
        temp_video_file audW outW fsW).2 ∧
      temp_combined_audio ∉ (finalize_video SubprocOutcome.ok SubprocOutcome.ok rAllW
        temp_video_file audW outW fsW).2) ∧
    ((finalize_video SubprocOutcome.ok SubprocOutcome.ok rAllW
        temp_video_file audW outW fsW).1 = false →
      (temp_video_file ∈ (finalize_video SubprocOutcome.ok SubprocOutcome.ok rAllW
        temp_video_file audW outW fsW).2 ↔ temp_video_file ∈ fsW)) ∧
    (∀ fs1 : FS, audW ≠ [] →
      combine_audio_files SubprocOutcome.ok audW temp_combined_audio fsW = (true, fs1) →
      (finalize_video SubprocOutcome.ok SubprocOutcome.ok rAllW
        temp_video_file audW outW fsW).1 = false →
      temp_combined_audio ∈ (finalize_video SubprocOutcome.ok SubprocOutcome.ok rAllW
        temp_video_file audW outW fsW).2) ∧
    (audW.length ≠ 1 → SubprocOutcome.ok ≠ SubprocOutcome.exc →
      audio_list_file ∉
        (combine_audio_files SubprocOutcome.ok audW temp_combined_audio fsW).2) ∧
    (audW.length ≠ 1 → SubprocOutcome.ok = SubprocOutcome.exc →
      audio_list_file ∈
        (combine_audio_files SubprocOutcome.ok audW temp_combined_audio fsW).2) ∧
    (∀ r2 : String → Bool,
      (finalize_video SubprocOutcome.ok SubprocOutcome.ok rAllW
        temp_video_file audW outW fsW).1 =
      (finalize_video SubprocOutcome.ok SubprocOutcome.ok r2
        temp_video_file audW outW fsW).1)) :=
  ⟨⟨fun _ => rfl, by decide, by decide, by decide⟩,
    cleanup_success_only SubprocOutcome.ok SubprocOutcome.ok rAllW
      temp_video_file audW outW fsW (fun _ => rfl) (by decide) (by decide) (by decide)⟩

/-! ### Claim C10 -/

/-- A rectangular BGR image with the given canvas dimensions. -/
def imgDims (img : Img) (w h : Nat) : Prop :=
  img.length = h ∧ ∀ row ∈ img, row.length = w

/-- A rectangular RGBA overlay with the given canvas dimensions. -/
def oimgDims (ov : OImg) (w h : Nat) : Prop :=
  ov.length = h ∧ ∀ row ∈ ov, row.length = w

theorem cvResize_dims (img : Img) (w h : Nat) : imgDims (cvResize img w h) w h := by
  constructor
  · simp [cvResize]
  · intro row hrow
    simp only [cvResize, List.mem_map] at hrow
    obtain ⟨i, _, rfl⟩ := hrow
    simp

theorem apply_zoom_dims (img : Img) (f : ℚ) (w h : Nat) (h1 : 1 ≤ f) :
    imgDims (apply_zoom_effect_fast img f w h) w h := by
  unfold apply_zoom_effect_fast
  by_cases hf : f = 1
  · rw [if_pos hf]
    exact cvResize_dims img w h
  · rw [if_neg hf]
    dsimp only
    have hW : w ≤ ⌊(w : ℚ) * f⌋₊ :=
      Nat.le_floor (le_mul_of_one_le_right (by positivity) h1)
    have hH : h ≤ ⌊(h : ℚ) * f⌋₊ :=
      Nat.le_floor (le_mul_of_one_le_right (by positivity) h1)
    have hz := cvResize_dims img ⌊(w : ℚ) * f⌋₊ ⌊(h : ℚ) * f⌋₊
    constructor
    · rw [List.length_map, List.length_take, List.length_drop, hz.1]
      have hdiv : (⌊(h : ℚ) * f⌋₊ - h) / 2 ≤ ⌊(h : ℚ) * f⌋₊ - h := Nat.div_le_self _ _
      omega
    · intro row hrow
      rw [List.mem_map] at hrow
      obtain ⟨orig, horig, rfl⟩ := hrow
      have hmem : orig ∈ cvResize img ⌊(w : ℚ) * f⌋₊ ⌊(h : ℚ) * f⌋₊ :=
        List.mem_of_mem_drop (List.mem_of_mem_take horig)
      have horigw : orig.length = ⌊(w : ℚ) * f⌋₊ := hz.2 orig hmem
      rw [List.length_take, List.length_drop, horigw]
      have hdiv : (⌊(w : ℚ) * f⌋₊ - w) / 2 ≤ ⌊(w : ℚ) * f⌋₊ - w := Nat.div_le_self _ _
      omega

theorem zoomFactor_ge_one (fn total : Nat) : 1 ≤ zoomFactor fn total := by
  unfold zoomFactor zoomProgress zoom_start zoom_end
  by_cases ht : 0 < total
  · rw [if_pos ht]
    have hp : (0 : ℚ) ≤ (fn : ℚ) / (total : ℚ) := by positivity
    nlinarith
  · rw [if_neg ht]
    norm_num

theorem precalc_frames_dims (imgOpt : Option Img) (total w h s : Nat) :
    ∀ p ∈ precalculate_zoom_frames imgOpt total w h s, imgDims p.2 w h := by
  intro p hp
  unfold precalculate_zoom_frames at hp
  rw [List.mem_map] at hp
  obtain ⟨fn, _, rfl⟩ := hp
  exact apply_zoom_dims _ _ w h (zoomFactor_ge_one fn total)

theorem mem_zipWith_imp {α β γ : Type} (g : α → β → γ) :
    ∀ (l1 : List α) (l2 : List β) (c : γ), c ∈ List.zipWith g l1 l2 →
      ∃ a b, a ∈ l1 ∧ b ∈ l2 ∧ c = g a b := by
  intro l1
  induction l1 with
  | nil =>
    intro l2 c hc
    simp at hc
  | cons a as ih =>
    intro l2 c hc
    cases l2 with
    | nil => simp at hc
    | cons b bs =>
      rw [List.zipWith_cons_cons] at hc
      rcases List.mem_cons.mp hc with rfl | hc2
      · exact ⟨a, b, by simp, by simp, rfl⟩
      · obtain ⟨x, y, hx, hy, rfl⟩ := ih bs c hc2
        exact ⟨x, y, List.mem_cons_of_mem _ hx, List.mem_cons_of_mem _ hy, rfl⟩

theorem fast_composite_dims (bg : Img) (ov : OImg) (w h : Nat)
    (hbg : imgDims bg w h) (hov : oimgDims ov w h) :
    imgDims (fast_composite bg ov) w h := by
  constructor
  · rw [fast_composite, List.length_zipWith, hbg.1, hov.1]
    exact Nat.min_self h
  · intro row hrow
    obtain ⟨brow, orow, hb, ho, rfl⟩ := mem_zipWith_imp _ bg ov row hrow
    rw [List.length_zipWith, hbg.2 brow hb, hov.2 orow ho]
    exact Nat.min_self w

theorem lookup_mem {m : List (Nat × Img)} {k : Nat} {v : Img}
    (hlk : m.lookup k = some v) : (k, v) ∈ m := by
  induction m with
  | nil => simp [List.lookup] at hlk
  | cons p rest ih =>
    by_cases he : k = p.1
    · have hb : (k == p.1) = true := by simp [he]
      simp only [List.lookup, hb] at hlk
      rw [Option.some_inj] at hlk
      rcases p with ⟨pk, pv⟩
      simp only at he hlk
      subst he
      subst hlk
      exact List.mem_cons_self _ _
    · have : (k == p.1) = false := by simp [he]
      simp only [List.lookup, this] at hlk
      exact List.mem_cons_of_mem _ (ih hlk)

theorem sceneStep_dims (overlay : Option OImg) (s w h : Nat)
    (st : List (Nat × Img) × List Img) (fn : Nat)
    (hov : ∀ ov, overlay = some ov → oimgDims ov w h)
    (hm : ∀ p ∈ st.1, imgDims p.2 w h) (hout : ∀ fr ∈ st.2, imgDims fr w h) :
    (∀ p ∈ (sceneStep overlay s st fn).1, imgDims p.2 w h) ∧
    (∀ fr ∈ (sceneStep overlay s st fn).2, imgDims fr w h) := by
  unfold sceneStep
  cases hk : getClosestZoomKey st.1 fn s with
  | none => exact ⟨hm, hout⟩
  | some k =>
    dsimp only
    cases hlk : st.1.lookup k with
    | none => exact ⟨hm, hout⟩
    | some bg =>
      dsimp only
      have hbg : imgDims bg w h := hm _ (lookup_mem hlk)
      cases overlay with
      | none =>
        dsimp only
        refine ⟨hm, ?_⟩
        intro fr hfr
        rcases List.mem_append.mp hfr with hfr | hfr
        · exact hout fr hfr
        · rw [List.mem_singleton] at hfr
          subst hfr
          exact hbg
      | some ov =>
        dsimp only
        have hco : imgDims (fast_composite bg ov) w h :=
          fast_composite_dims bg ov w h hbg (hov ov rfl)
        constructor
        · intro p hp
          unfold updateKey at hp
          rw [List.mem_map] at hp
          obtain ⟨q, hq, rfl⟩ := hp
          by_cases he : q.1 = k
          · rw [if_pos he]
            exact hco
          · rw [if_neg he]
            exact hm q hq
        · intro fr hfr
          rcases List.mem_append.mp hfr with hfr | hfr
          · exact hout fr hfr
          · rw [List.mem_singleton] at hfr
            subst hfr
            exact hco

theorem writeFrames_dims (overlay : Option OImg) (s w h : Nat)
    (hov : ∀ ov, overlay = some ov → oimgDims ov w h) :
    ∀ (fns : List Nat) (m : List (Nat × Img)) (out : List Img),
      (∀ p ∈ m, imgDims p.2 w h) → (∀ fr ∈ out, imgDims fr w h) →
      ∀ fr ∈ (fns.foldl (sceneStep overlay s) (m, out)).2, imgDims fr w h := by
  intro fns
  induction fns with
  | nil =>
    intro m out _ hout
    exact hout
  | cons fn rest ih =>
    intro m out hm hout
    rw [List.foldl_cons]
    obtain ⟨h1, h2⟩ := sceneStep_dims overlay s w h (m, out) fn hov hm hout
    rcases hst : sceneStep overlay s (m, out) fn with ⟨m2, out2⟩
    rw [hst] at h1 h2
    exact ih m2 out2 h1 h2

/-- Claim C10: for any source image and any zoom factor in `[1.0, 1.15]`,
`apply_zoom_effect_fast` returns an exactly canvas-sized buffer (at factor 1
by direct resize, above it because the enlarged dimensions cover the canvas
so the center crop is full); hence every materialised zoom frame is
canvas-sized, and every frame a scene hands to the encoder sink (with a
canvas-sized overlay when present) is canvas-sized. -/
theorem zoom_always_canvas_sized (img : Img) (imgOpt : Option Img) (f : ℚ)
    (w h total s : Nat) (scene : ProcessedScene)
    (hf1 : 1 ≤ f) (hf2 : f ≤ 23 / 20)
    (hsc1 : ∀ p ∈ scene.zoom_frames, imgDims p.2 w h)
    (hsc2 : ∀ ov, scene.text_overlay = some ov → oimgDims ov w h) :
    imgDims (apply_zoom_effect_fast img f w h) w h ∧
    (∀ p ∈ precalculate_zoom_frames imgOpt total w h s, imgDims p.2 w h) ∧
    (∀ fr ∈ (writeScene scene s).2, imgDims fr w h) := by
  refine ⟨apply_zoom_dims img f w h hf1, precalc_frames_dims imgOpt total w h s, ?_⟩
  rw [writeScene]
  exact writeFrames_dims scene.text_overlay s w h hsc2 _ scene.zoom_frames [] hsc1
    (by simp)

/-- Witness for C10 at a one-pixel canvas, factor `1.15`, and `sceneNoOv`. -/
theorem zoom_always_canvas_sized_witness :
    ((1 : ℚ) ≤ 23 / 20 ∧ (23 / 20 : ℚ) ≤ 23 / 20 ∧
      (∀ p ∈ sceneNoOv.zoom_frames, imgDims p.2 1 1) ∧
      (∀ ov, sceneNoOv.text_overlay = some ov → oimgDims ov 1 1)) ∧
    (imgDims (apply_zoom_effect_fast [[⟨9, 9, 9⟩]] (23 / 20) 1 1) 1 1 ∧
    (∀ p ∈ precalculate_zoom_frames (some [[⟨9, 9, 9⟩]]) 5 1 1 4, imgDims p.2 1 1) ∧
    (∀ fr ∈ (writeScene sceneNoOv 4).2, imgDims fr 1 1)) :=
  by
  have hzf : ∀ p ∈ sceneNoOv.zoom_frames, imgDims p.2 1 1 := by
    intro p hp
    simp only [sceneNoOv] at hp
    rw [List.mem_singleton] at hp
    subst hp
    exact ⟨rfl, by simp⟩
  have hovd : ∀ ov, sceneNoOv.text_overlay = some ov → oimgDims ov 1 1 := by
    intro ov hov
    simp [sceneNoOv] at hov
  exact ⟨⟨by norm_num, by norm_num, hzf, hovd⟩,
    zoom_always_canvas_sized [[⟨9, 9, 9⟩]] (some [[⟨9, 9, 9⟩]]) (23 / 20) 1 1 5 4 sceneNoOv
      (by norm_num) (by norm_num) hzf hovd⟩

end Movie
